import Mathlib

/-!
# Verification of the UCLA enrollment monitor's availability-extraction engine

Shallow embedding of `monitor.py` over `List Char` strings.  Python strings
become `List Char`; the concrete regular expressions of the source are
compiled by hand into character-level matchers; the fallible page fetch
(`driver.find_element(...).text`, the only statement inside the engine's
`try` that can raise for a well-typed input) is modelled as an
`Except (List Char) (List Char)` argument.
-/

namespace Monitor

/-- Turn a string literal into the `List Char` the embedding works over. -/
def cs (s : String) : List Char := s.toList

/-- Python's `\s` / `str.isspace` for the ASCII range (space, tab, newline,
carriage return, vertical tab, form feed). -/
def pyIsSpace (c : Char) : Bool :=
  c = ' ' || c = '\t' || c = '\n' || c = '\r' || c = Char.ofNat 11 || c = Char.ofNat 12

/-- Python `str.lower` (ASCII range, as in `Char.toLower`). -/
def lowerL (s : List Char) : List Char := s.map Char.toLower

/-- Python `str.strip()`: drop leading and trailing whitespace. -/
def pyStrip (s : List Char) : List Char :=
  ((s.dropWhile pyIsSpace).reverse.dropWhile pyIsSpace).reverse

/-- Python `str.split("\n")`: split at every newline, keeping empty pieces. -/
def splitOnNl : List Char → List (List Char)
  | [] => [[]]
  | c :: rest =>
    match splitOnNl rest with
    | [] => [[]]
    | l :: ls => if c = '\n' then [] :: l :: ls else (c :: l) :: ls

/-- Python `needle in haystack`: contiguous-substring containment. -/
def containsSub (needle : List Char) : List Char → Bool
  | [] => needle.isEmpty
  | c :: rest => needle.isPrefixOf (c :: rest) || containsSub needle rest

/-- `l = p ++ t` for some `t`: `p` is a prefix segment of `l`. -/
def PrefSeg (p l : List Char) : Prop := ∃ t, l = p ++ t

/-- `l = t ++ s` for some `t`: `s` is a suffix segment of `l`. -/
def SufSeg (s l : List Char) : Prop := ∃ t, l = t ++ s

/-- `l = a ++ m ++ b` for some `a`, `b`: `m` occurs contiguously inside `l`. -/
def SubSeg (m l : List Char) : Prop := ∃ a b, l = a ++ m ++ b

lemma prefSeg_subSeg {p l : List Char} (h : PrefSeg p l) : SubSeg p l := by
  obtain ⟨t, ht⟩ := h
  exact ⟨[], t, by simp [ht]⟩

lemma sufSeg_subSeg {s l : List Char} (h : SufSeg s l) : SubSeg s l := by
  obtain ⟨t, ht⟩ := h
  exact ⟨t, [], by simp [ht]⟩

lemma SubSeg.trans {x y z : List Char} (hxy : SubSeg x y) (hyz : SubSeg y z) :
    SubSeg x z := by
  obtain ⟨a, b, hab⟩ := hxy
  obtain ⟨c, d, hcd⟩ := hyz
  exact ⟨c ++ a, b ++ d, by simp [hcd, hab]⟩

lemma SubSeg.mem {m l : List Char} (h : SubSeg m l) {c : Char} (hc : c ∈ m) : c ∈ l := by
  obtain ⟨a, b, hab⟩ := h
  simp [hab, hc]

lemma isPrefixOf_iff_prefSeg (p l : List Char) :
    p.isPrefixOf l = true ↔ PrefSeg p l := by
  induction p generalizing l with
  | nil => simp [List.isPrefixOf, PrefSeg]
  | cons a as ih =>
    cases l with
    | nil =>
      simp only [List.isPrefixOf, PrefSeg]
      constructor
      · intro h; cases h
      · rintro ⟨t, ht⟩; cases ht
    | cons b bs =>
      simp only [List.isPrefixOf, Bool.and_eq_true, beq_iff_eq, ih]
      constructor
      · rintro ⟨rfl, t, rfl⟩; exact ⟨t, rfl⟩
      · rintro ⟨t, ht⟩
        injection ht with h1 h2
        exact ⟨h1.symm, t, h2⟩

lemma containsSub_iff_subSeg (n l : List Char) :
    containsSub n l = true ↔ SubSeg n l := by
  induction l with
  | nil =>
    simp only [containsSub, List.isEmpty_iff, SubSeg]
    constructor
    · rintro rfl; exact ⟨[], [], rfl⟩
    · rintro ⟨a, b, hab⟩
      have h := hab.symm
      rw [List.append_eq_nil, List.append_eq_nil] at h
      exact h.1.2
  | cons c rest ih =>
    simp only [containsSub, Bool.or_eq_true, ih, isPrefixOf_iff_prefSeg]
    constructor
    · rintro (⟨t, ht⟩ | ⟨a, b, hab⟩)
      · exact ⟨[], t, by simp [ht]⟩
      · exact ⟨c :: a, b, by simp [hab]⟩
    · rintro ⟨a, b, hab⟩
      cases a with
      | nil =>
        rw [List.nil_append] at hab
        exact Or.inl ⟨b, hab⟩
      | cons a0 as =>
        rw [List.cons_append, List.cons_append] at hab
        injection hab with h1 h2
        exact Or.inr ⟨as, b, h2⟩

lemma dropWhile_sufSeg (p : Char → Bool) (l : List Char) : SufSeg (l.dropWhile p) l := by
  induction l with
  | nil => exact ⟨[], rfl⟩
  | cons c rest ih =>
    by_cases h : p c = true
    · obtain ⟨t, ht⟩ := ih
      refine ⟨c :: t, ?_⟩
      rw [List.dropWhile_cons, if_pos h, List.cons_append]
      exact congrArg (List.cons c) ht
    · refine ⟨[], ?_⟩
      rw [List.dropWhile_cons, if_neg h, List.nil_append]

lemma pyStrip_subSeg (l : List Char) : SubSeg (pyStrip l) l := by
  have h1 : SufSeg (l.dropWhile pyIsSpace) l := dropWhile_sufSeg _ _
  have h2 : SufSeg ((l.dropWhile pyIsSpace).reverse.dropWhile pyIsSpace)
      (l.dropWhile pyIsSpace).reverse := dropWhile_sufSeg _ _
  obtain ⟨t, ht⟩ := h2
  have : PrefSeg (pyStrip l) (l.dropWhile pyIsSpace) := by
    refine ⟨t.reverse, ?_⟩
    have := congrArg List.reverse ht
    simpa [pyStrip] using this
  exact (prefSeg_subSeg this).trans (sufSeg_subSeg h1)

/-!
## Block segmenter

`_get_class_blocks` splits the page on the case-insensitive regex
`(Class \d+:\s*)`, keeping the captured header, and strips each
`header ++ content` pair.  `headerLen s` returns the length of the regex
match anchored at the start of `s` (the pattern's greedy pieces never
backtrack, since `\d` and `\s` are disjoint from the literals that follow).
-/

/-- Length of a match of `Class \d+:\s*` (case-insensitive) at the start of
`s`, or `none` when the pattern does not match there. -/
def headerLen : List Char → Option Nat
  | c1 :: c2 :: c3 :: c4 :: c5 :: c6 :: rest =>
    if [c1, c2, c3, c4, c5].map Char.toLower = cs "class" ∧ c6 = ' ' then
      if (rest.takeWhile Char.isDigit).isEmpty then none
      else
        match rest.dropWhile Char.isDigit with
        | ':' :: rest3 =>
          some (6 + (rest.takeWhile Char.isDigit).length + 1 +
            (rest3.takeWhile pyIsSpace).length)
        | _ => none
    else none
  | _ => none

lemma headerLen_pos {s : List Char} {n : Nat} (h : headerLen s = some n) : 1 ≤ n := by
  rcases s with _ | ⟨c1, _ | ⟨c2, _ | ⟨c3, _ | ⟨c4, _ | ⟨c5, _ | ⟨c6, rest⟩⟩⟩⟩⟩⟩ <;>
    simp only [headerLen] at h <;> try cases h
  split at h
  · split at h
    · cases h
    · split at h
      · injection h with h'
        omega
      · cases h
  · cases h

/-- Split `s` at the first position where the header pattern matches:
returns (text before the match, text from the match on). -/
def splitAtNextHeader : List Char → List Char × List Char
  | [] => ([], [])
  | c :: rest =>
    if (headerLen (c :: rest)).isSome then ([], c :: rest)
    else (c :: (splitAtNextHeader rest).1, (splitAtNextHeader rest).2)

lemma splitAtNextHeader_append (s : List Char) :
    (splitAtNextHeader s).1 ++ (splitAtNextHeader s).2 = s := by
  induction s with
  | nil => rfl
  | cons c rest ih =>
    by_cases h : (headerLen (c :: rest)).isSome
    · simp [splitAtNextHeader, h]
    · simp [splitAtNextHeader, h, ih]

lemma splitAtNextHeader_snd_len (s : List Char) :
    (splitAtNextHeader s).2.length ≤ s.length := by
  induction s with
  | nil => simp [splitAtNextHeader]
  | cons c rest ih =>
    by_cases h : (headerLen (c :: rest)).isSome
    · simp [splitAtNextHeader, h]
    · simp only [splitAtNextHeader, h, if_neg]
      simp only [Bool.false_eq_true, if_false, List.length_cons]
      omega

lemma splitAtNextHeader_snd_spec (s : List Char) :
    (splitAtNextHeader s).2 = [] ∨ (headerLen (splitAtNextHeader s).2).isSome = true := by
  induction s with
  | nil => exact Or.inl rfl
  | cons c rest ih =>
    by_cases h : (headerLen (c :: rest)).isSome
    · right
      simp [splitAtNextHeader, h]
    · simpa [splitAtNextHeader, h] using ih

/-- Fuelled core of the `re.split` embedding: the parts list
`[pre, match₁, piece₁, match₂, piece₂, …]`. -/
def splitPartsF : Nat → List Char → List (List Char)
  | 0, s => [s]
  | fuel + 1, s =>
    match splitAtNextHeader s with
    | (pre, []) => [pre]
    | (pre, c :: rest) =>
      match headerLen (c :: rest) with
      | some n => pre :: (c :: rest).take n :: splitPartsF fuel ((c :: rest).drop n)
      | none => [pre]

/-- `re.split(r"(Class \d+:\s*)", page_text, flags=re.IGNORECASE)`. -/
def splitParts (s : List Char) : List (List Char) := splitPartsF s.length s

lemma splitPartsF_nil (g : Nat) : splitPartsF g [] = [[]] := by
  cases g <;> rfl

lemma splitPartsF_congr :
    ∀ f g s, s.length ≤ f → s.length ≤ g → splitPartsF f s = splitPartsF g s := by
  intro f
  induction f with
  | zero =>
    intro g s hf _
    have : s = [] := List.length_eq_zero.mp (Nat.le_zero.mp hf)
    subst this
    rw [splitPartsF_nil, splitPartsF_nil]
  | succ f ih =>
    intro g s hf hg
    cases s with
    | nil => rw [splitPartsF_nil, splitPartsF_nil]
    | cons c0 s0 =>
      cases g with
      | zero => simp at hg
      | succ g =>
        have hsnd := splitAtNextHeader_snd_len (c0 :: s0)
        simp only [splitPartsF]
        split
        · rfl
        · rename_i pre c rs h1
          split
          · rename_i n h2
            have hpos := headerLen_pos h2
            have hsnd2 : (c :: rs).length ≤ (c0 :: s0).length := by
              rw [h1] at hsnd
              exact hsnd
            have hlen : ((c :: rs).drop n).length ≤ f := by
              rw [List.length_drop]
              simp only [List.length_cons] at hsnd2 hf ⊢
              omega
            have hlen' : ((c :: rs).drop n).length ≤ g := by
              rw [List.length_drop]
              simp only [List.length_cons] at hsnd2 hg ⊢
              omega
            rw [ih g ((c :: rs).drop n) hlen hlen']
          · rfl

/-- One-step unfolding of `splitParts`. -/
lemma splitParts_eq (s : List Char) :
    splitParts s =
      match splitAtNextHeader s with
      | (pre, []) => [pre]
      | (pre, c :: rest) =>
        match headerLen (c :: rest) with
        | some n => pre :: (c :: rest).take n :: splitParts ((c :: rest).drop n)
        | none => [pre] := by
  cases s with
  | nil => rfl
  | cons c0 s0 =>
    show splitPartsF (s0.length + 1) (c0 :: s0) = _
    have hsnd := splitAtNextHeader_snd_len (c0 :: s0)
    simp only [splitPartsF]
    split
    · rfl
    · rename_i pre c rs h1
      split
      · rename_i n h2
        have hpos := headerLen_pos h2
        have hsnd2 : (c :: rs).length ≤ (c0 :: s0).length := by
          rw [h1] at hsnd
          exact hsnd
        have hlen : ((c :: rs).drop n).length ≤ s0.length := by
          rw [List.length_drop]
          simp only [List.length_cons] at hsnd2 ⊢
          omega
        rw [splitPartsF_congr s0.length ((c :: rs).drop n).length ((c :: rs).drop n) hlen
          (Nat.le_refl _)]
        rfl
      · rfl

/-- The Python loop `for i in range(1, len(parts), 2)` pairing each captured
header with the following piece (`""` when absent) and stripping. -/
def pairAux : List (List Char) → List (List Char)
  | [] => []
  | [hd] => [pyStrip hd]
  | hd :: piece :: rest => pyStrip (hd ++ piece) :: pairAux rest

/-- `_get_class_blocks(page_text)`. -/
def getClassBlocks (page_text : List Char) : List (List Char) :=
  match splitParts page_text with
  | [] => []
  | _pre :: rest => pairAux rest

/-!
## Specification-level segmentation

A second segmentation following the spec's words (§4.1): discard the text
before the first header; each block is one header concatenated with all
text up to the next header, whitespace-trimmed, in document order.
-/

/-- Fuelled walk producing the blocks from a position that starts at a
header (or is empty / header-free, yielding nothing). -/
def segSpecFromF : Nat → List Char → List (List Char)
  | 0, _ => []
  | fuel + 1, s =>
    match headerLen s with
    | none => []
    | some n =>
      pyStrip (s.take n ++ (splitAtNextHeader (s.drop n)).1) ::
        segSpecFromF fuel (splitAtNextHeader (s.drop n)).2

def segSpecFrom (s : List Char) : List (List Char) := segSpecFromF s.length s

/-- Spec-side segmenter: drop everything before the first header, then emit
`trim(header ++ content-before-next-header)` blocks in document order. -/
def segSpec (s : List Char) : List (List Char) := segSpecFrom (splitAtNextHeader s).2

lemma segSpecFromF_nil (g : Nat) : segSpecFromF g [] = [] := by
  cases g <;> rfl

lemma segSpecFromF_congr :
    ∀ f g s, s.length ≤ f → s.length ≤ g → segSpecFromF f s = segSpecFromF g s := by
  intro f
  induction f with
  | zero =>
    intro g s hf _
    have : s = [] := List.length_eq_zero.mp (Nat.le_zero.mp hf)
    subst this
    rw [segSpecFromF_nil, segSpecFromF_nil]
  | succ f ih =>
    intro g s hf hg
    cases s with
    | nil => rw [segSpecFromF_nil, segSpecFromF_nil]
    | cons c0 s0 =>
      cases g with
      | zero => simp at hg
      | succ g =>
        simp only [segSpecFromF]
        split
        · rfl
        · rename_i n h2
          have hpos := headerLen_pos h2
          have hlen0 : ((c0 :: s0).drop n).length ≤ s0.length := by
            rw [List.length_drop]
            simp only [List.length_cons]
            omega
          have hs := splitAtNextHeader_snd_len ((c0 :: s0).drop n)
          have hlen : (splitAtNextHeader ((c0 :: s0).drop n)).2.length ≤ f := by
            simp only [List.length_cons] at hf
            omega
          have hlen' : (splitAtNextHeader ((c0 :: s0).drop n)).2.length ≤ g := by
            simp only [List.length_cons] at hg
            omega
          rw [ih g _ hlen hlen']

/-- One-step unfolding of `segSpecFrom`. -/
lemma segSpecFrom_eq (s : List Char) :
    segSpecFrom s =
      match headerLen s with
      | none => []
      | some n =>
        pyStrip (s.take n ++ (splitAtNextHeader (s.drop n)).1) ::
          segSpecFrom (splitAtNextHeader (s.drop n)).2 := by
  cases s with
  | nil => rfl
  | cons c0 s0 =>
    show segSpecFromF (s0.length + 1) (c0 :: s0) = _
    simp only [segSpecFromF]
    split
    · rfl
    · rename_i n h2
      have hpos := headerLen_pos h2
      have hlen0 : ((c0 :: s0).drop n).length ≤ s0.length := by
        rw [List.length_drop]
        simp only [List.length_cons]
        omega
      have hs := splitAtNextHeader_snd_len ((c0 :: s0).drop n)
      rw [segSpecFromF_congr s0.length (splitAtNextHeader ((c0 :: s0).drop n)).2.length
        (splitAtNextHeader ((c0 :: s0).drop n)).2 (by omega) (Nat.le_refl _)]
      rfl

lemma splitParts_end {s pre : List Char} (h : splitAtNextHeader s = (pre, [])) :
    splitParts s = [pre] := by
  rw [splitParts_eq]
  simp only [h]

lemma splitParts_step {s pre : List Char} {c : Char} {rs : List Char} {n : Nat}
    (h1 : splitAtNextHeader s = (pre, c :: rs)) (h2 : headerLen (c :: rs) = some n) :
    splitParts s = pre :: (c :: rs).take n :: splitParts ((c :: rs).drop n) := by
  rw [splitParts_eq]
  simp only [h1, h2]

lemma segSpecFrom_some {s : List Char} {n : Nat} (h : headerLen s = some n) :
    segSpecFrom s =
      pyStrip (s.take n ++ (splitAtNextHeader (s.drop n)).1) ::
        segSpecFrom (splitAtNextHeader (s.drop n)).2 := by
  rw [segSpecFrom_eq]
  simp only [h]

/-- The code's segmenter produces exactly the spec-side blocks. -/
lemma pairAux_tail_eq (s : List Char) :
    pairAux (splitParts s).tail = segSpecFrom (splitAtNextHeader s).2 := by
  suffices key : ∀ N t, t.length = N →
      pairAux (splitParts t).tail = segSpecFrom (splitAtNextHeader t).2 by
    exact key s.length s rfl
  intro N
  induction N using Nat.strong_induction_on with
  | _ N ih =>
    intro s hn
    subst hn
    have hspec := splitAtNextHeader_snd_spec s
    have hsnd := splitAtNextHeader_snd_len s
    rcases h1 : splitAtNextHeader s with ⟨pre, rest⟩
    cases rest with
    | nil =>
      rw [splitParts_end h1]
      show pairAux [pre].tail = segSpecFrom []
      simp [pairAux, segSpecFrom, segSpecFromF_nil]
    | cons c rs =>
      have h1' : (splitAtNextHeader s).2 = c :: rs := by rw [h1]
      rw [h1'] at hspec hsnd
      rcases hspec with hspec | hspec
      · cases hspec
      · rw [Option.isSome_iff_exists] at hspec
        obtain ⟨n, h2⟩ := hspec
        have hpos := headerLen_pos h2
        rw [splitParts_step h1 h2, List.tail_cons]
        show pairAux _ = segSpecFrom (c :: rs)
        rw [segSpecFrom_some h2]
        have hspec' := splitAtNextHeader_snd_spec ((c :: rs).drop n)
        have hsnd' := splitAtNextHeader_snd_len ((c :: rs).drop n)
        rcases h3 : splitAtNextHeader ((c :: rs).drop n) with ⟨content, rest2⟩
        have h3s : (splitAtNextHeader ((c :: rs).drop n)).2 = rest2 := by rw [h3]
        show pairAux _ = pyStrip ((c :: rs).take n ++ content) :: segSpecFrom rest2
        rw [h3s] at hspec' hsnd'
        cases rest2 with
        | nil =>
          rw [splitParts_end h3]
          simp [pairAux, segSpecFrom, segSpecFromF_nil]
        | cons d ds =>
          rcases hspec' with hspec' | hspec'
          · cases hspec'
          · rw [Option.isSome_iff_exists] at hspec'
            obtain ⟨n2, h4⟩ := hspec'
            rw [splitParts_step h3 h4]
            simp only [pairAux]
            have hlt : ((c :: rs).drop n).length < s.length := by
              rw [List.length_drop]
              simp only [List.length_cons] at hsnd ⊢
              omega
            have hih := ih ((c :: rs).drop n).length hlt ((c :: rs).drop n) rfl
            rw [splitParts_step h3 h4, List.tail_cons, h3s] at hih
            rw [hih]

lemma getClassBlocks_eq_pairAux_tail (s : List Char) :
    getClassBlocks s = pairAux (splitParts s).tail := by
  unfold getClassBlocks
  cases h : splitParts s with
  | nil => rfl
  | cons pre rest => rfl

/-- Refinement: `_get_class_blocks` equals the spec-side segmenter. -/
lemma getClassBlocks_eq_segSpec (s : List Char) : getClassBlocks s = segSpec s := by
  rw [getClassBlocks_eq_pairAux_tail, pairAux_tail_eq]
  rfl

lemma splitAtNextHeader_of_noHeader :
    ∀ s : List Char, (∀ i, i < s.length → headerLen (s.drop i) = none) →
      splitAtNextHeader s = (s, []) := by
  intro s
  induction s with
  | nil => intro _; rfl
  | cons c rest ih =>
    intro h
    have h0 : headerLen (c :: rest) = none := h 0 (by simp)
    have hrec : splitAtNextHeader rest = (rest, []) := by
      refine ih fun i hi => ?_
      have := h (i + 1) (by simpa using Nat.succ_lt_succ hi)
      simpa using this
    simp [splitAtNextHeader, h0, hrec]

/-- A page with no header occurrence segments to no blocks at all. -/
lemma getClassBlocks_of_noHeader (s : List Char)
    (h : ∀ i, i < s.length → headerLen (s.drop i) = none) :
    getClassBlocks s = [] := by
  rw [getClassBlocks_eq_pairAux_tail,
    splitParts_end (splitAtNextHeader_of_noHeader s h)]
  rfl

lemma SubSeg.consRight {m l : List Char} {c : Char} (h : SubSeg m l) : SubSeg m (c :: l) := by
  obtain ⟨a, b, hab⟩ := h
  exact ⟨c :: a, b, by rw [hab]; rfl⟩

lemma splitOnNl_ne_nil (l : List Char) : splitOnNl l ≠ [] := by
  cases l with
  | nil => simp [splitOnNl]
  | cons c rest =>
    simp only [splitOnNl]
    cases splitOnNl rest with
    | nil => simp
    | cons l0 ls =>
      by_cases h : c = '\n' <;> simp [h]

lemma splitOnNl_head_tail :
    ∀ l hd tl, splitOnNl l = hd :: tl → PrefSeg hd l ∧ ∀ m ∈ tl, SubSeg m l := by
  intro l
  induction l with
  | nil =>
    intro hd tl h
    simp only [splitOnNl] at h
    injection h with h1 h2
    subst h1
    subst h2
    exact ⟨⟨[], rfl⟩, by simp⟩
  | cons c rest ih =>
    intro hd tl h
    cases heq : splitOnNl rest with
    | nil => exact absurd heq (splitOnNl_ne_nil rest)
    | cons l0 ls =>
      have hstep : splitOnNl (c :: rest) =
          if c = '\n' then [] :: l0 :: ls else (c :: l0) :: ls := by
        show (match splitOnNl rest with
              | [] => [[]]
              | l :: ls => if c = '\n' then [] :: l :: ls else (c :: l) :: ls) = _
        rw [heq]
      rw [hstep] at h
      obtain ⟨hpre, hmem⟩ := ih l0 ls heq
      by_cases hc : c = '\n'
      · rw [if_pos hc] at h
        injection h with h1 h2
        subst h1
        subst h2
        refine ⟨⟨c :: rest, rfl⟩, ?_⟩
        intro m hm
        rcases List.mem_cons.mp hm with rfl | hm
        · exact (prefSeg_subSeg hpre).consRight
        · exact (hmem m hm).consRight
      · rw [if_neg hc] at h
        injection h with h1 h2
        subst h1
        subst h2
        obtain ⟨t0, ht0⟩ := hpre
        refine ⟨⟨t0, by rw [ht0]; rfl⟩, ?_⟩
        intro m hm
        exact (hmem m hm).consRight

lemma splitOnNl_mem_subSeg {l m : List Char} (h : m ∈ splitOnNl l) : SubSeg m l := by
  cases heq : splitOnNl l with
  | nil => exact absurd heq (splitOnNl_ne_nil l)
  | cons hd tl =>
    rw [heq] at h
    obtain ⟨hpre, hmem⟩ := splitOnNl_head_tail l hd tl heq
    rcases List.mem_cons.mp h with rfl | h
    · exact prefSeg_subSeg hpre
    · exact hmem m h

/-!
## Course matcher

`_block_matches_class_code` tests `re.match(rf"^\s*{re.escape(code)}\s*-\s*",
line2)` on the stripped second line of the block.  `re.escape` makes the
code a literal, so a match is exactly a decomposition
`optional whitespace ++ code ++ optional whitespace ++ '-' ++ anything`
(the trailing `\s*` always succeeds and constrains nothing).
-/

/-- Does the text start with a literal `-`? -/
def headDash : List Char → Bool
  | [] => false
  | c :: _ => c = '-'

/-- `\s*-` anchored at the start of `t` (existential over the amount of
whitespace swallowed, which is regex backtracking semantics). -/
def dashAfterWs (t : List Char) : Bool :=
  (List.range (t.length + 1)).any fun j =>
    ((t.take j).all pyIsSpace) && headDash (t.drop j)

/-- `^\s*{code}\s*-` anchored at the start of `line2`. -/
def wsTokenDash (code line2 : List Char) : Bool :=
  (List.range (line2.length + 1)).any fun i =>
    ((line2.take i).all pyIsSpace) && code.isPrefixOf (line2.drop i) &&
      dashAfterWs ((line2.drop i).drop code.length)

/-- `_block_matches_class_code(block, class_code)`. -/
def blockMatchesClassCode (block class_code : List Char) : Bool :=
  match splitOnNl (pyStrip block) with
  | _line1 :: line2 :: _ => wsTokenDash class_code (pyStrip line2)
  | _ => false

/-- The spec's reading of the matcher: the trimmed second line starts with
the identifier as a literal token, then optional whitespace, then `-`. -/
def LineTokenMatch (code l : List Char) : Prop :=
  ∃ ws tl, l = code ++ ws ++ '-' :: tl ∧ ws.all pyIsSpace = true

lemma dashAfterWs_iff (t : List Char) :
    dashAfterWs t = true ↔ ∃ ws tl, t = ws ++ '-' :: tl ∧ ws.all pyIsSpace = true := by
  unfold dashAfterWs
  rw [List.any_eq_true]
  constructor
  · rintro ⟨j, _, hcond⟩
    rw [Bool.and_eq_true] at hcond
    obtain ⟨hws, hdash⟩ := hcond
    rcases hd : t.drop j with _ | ⟨c0, tl⟩
    · rw [hd] at hdash
      cases hdash
    · rw [hd] at hdash
      have hc0 : c0 = '-' := of_decide_eq_true hdash
      subst hc0
      have hsplit : t = t.take j ++ t.drop j := (List.take_append_drop j t).symm
      rw [hd] at hsplit
      exact ⟨t.take j, tl, hsplit, hws⟩
  · rintro ⟨ws, tl, rfl, hws⟩
    refine ⟨ws.length, ?_, ?_⟩
    · rw [List.mem_range, List.length_append]
      omega
    · rw [Bool.and_eq_true, List.take_left, List.drop_left]
      exact ⟨hws, by simp [headDash]⟩

lemma wsTokenDash_iff {code l : List Char}
    (hl : ∀ c, l.head? = some c → pyIsSpace c = false) :
    wsTokenDash code l = true ↔ LineTokenMatch code l := by
  unfold wsTokenDash LineTokenMatch
  rw [List.any_eq_true]
  constructor
  · rintro ⟨i, _, hcond⟩
    rw [Bool.and_eq_true, Bool.and_eq_true] at hcond
    obtain ⟨⟨hws, hpre⟩, hdash⟩ := hcond
    rcases l with _ | ⟨c0, l0⟩
    · rw [isPrefixOf_iff_prefSeg] at hpre
      obtain ⟨t, ht⟩ := hpre
      have hnil : ([] : List Char).drop i = [] := by simp
      rw [hnil] at ht
      have hcode : code = [] := by
        have := congrArg List.length ht
        simp only [List.length_nil, List.length_append] at this
        exact List.length_eq_zero.mp (by omega)
      subst hcode
      rw [hnil] at hdash
      cases hdash
    · rcases i with _ | i
      · rw [List.drop_zero] at hpre hdash
        rw [isPrefixOf_iff_prefSeg] at hpre
        obtain ⟨t, ht⟩ := hpre
        have hdrop : (c0 :: l0).drop code.length = t := by
          rw [ht, List.drop_left]
        rw [hdrop, dashAfterWs_iff] at hdash
        obtain ⟨ws, tl, rfl, hwsall⟩ := hdash
        exact ⟨ws, tl, by rw [ht, List.append_assoc], hwsall⟩
      · rw [List.take_succ_cons, List.all_cons, Bool.and_eq_true] at hws
        have := hl c0 rfl
        rw [this] at hws
        cases hws.1
  · rintro ⟨ws, tl, rfl, hws⟩
    refine ⟨0, ?_, ?_⟩
    · rw [List.mem_range]
      omega
    · rw [Bool.and_eq_true, Bool.and_eq_true, List.take_zero, List.drop_zero]
      refine ⟨⟨rfl, ?_⟩, ?_⟩
      · rw [isPrefixOf_iff_prefSeg]
        exact ⟨ws ++ '-' :: tl, by rw [List.append_assoc]⟩
      · have hdrop : (code ++ ws ++ '-' :: tl).drop code.length = ws ++ '-' :: tl := by
          rw [List.append_assoc, List.drop_left]
        rw [hdrop, dashAfterWs_iff]
        exact ⟨ws, tl, rfl, hws⟩

lemma dropWhile_head_not (p : Char → Bool) (l : List Char) :
    ∀ c, (l.dropWhile p).head? = some c → p c = false := by
  induction l with
  | nil =>
    intro c h
    cases h
  | cons a rest ih =>
    intro c h
    by_cases ha : p a = true
    · rw [List.dropWhile_cons, if_pos ha] at h
      exact ih c h
    · rw [List.dropWhile_cons, if_neg ha] at h
      injection h with h'
      subst h'
      exact Bool.eq_false_iff.mpr ha

lemma rstrip_prefSeg (m : List Char) :
    PrefSeg ((m.reverse.dropWhile pyIsSpace).reverse) m := by
  obtain ⟨t, ht⟩ := dropWhile_sufSeg pyIsSpace m.reverse
  refine ⟨t.reverse, ?_⟩
  have h := congrArg List.reverse ht
  simpa using h

lemma pyStrip_head_not_space (l : List Char) :
    ∀ c, (pyStrip l).head? = some c → pyIsSpace c = false := by
  intro c h
  obtain ⟨t, ht⟩ := rstrip_prefSeg (l.dropWhile pyIsSpace)
  have ht' : l.dropWhile pyIsSpace = pyStrip l ++ t := ht
  rcases hs : pyStrip l with _ | ⟨c0, rest⟩
  · rw [hs] at h
    cases h
  · rw [hs] at h ht'
    injection h with h'
    have hhead : (l.dropWhile pyIsSpace).head? = some c := by
      rw [ht', ← h']
      rfl
    exact dropWhile_head_not pyIsSpace l c hhead

lemma blockMatches_of_short {block code : List Char}
    (h : (splitOnNl (pyStrip block)).length < 2) :
    blockMatchesClassCode block code = false := by
  unfold blockMatchesClassCode
  cases heq : splitOnNl (pyStrip block) with
  | nil => rfl
  | cons l1 rest =>
    cases rest with
    | nil => rfl
    | cons l2 r2 =>
      rw [heq] at h
      simp only [List.length_cons] at h
      exact absurd h (by omega)

lemma blockMatches_iff_lineTokenMatch {block code l1 l2 : List Char}
    {rest : List (List Char)} (h : splitOnNl (pyStrip block) = l1 :: l2 :: rest) :
    blockMatchesClassCode block code = true ↔ LineTokenMatch code (pyStrip l2) := by
  unfold blockMatchesClassCode
  rw [h]
  exact wsTokenDash_iff (pyStrip_head_not_space l2)

/-!
## Section row extractor

`_get_lec_lab_rows`: walk lines 3+ of the block; a trimmed line starting
(case-insensitively) with `"lec "` or `"lab "` begins a row; the next line
is merged into it as its status line unless it is blank or itself starts
with `"lec "`, `"lab "` or `"dis "`.
-/

/-- `stripped.lower().startswith(pre)` for an already-lowercase `pre`. -/
def startsWithCI (pre s : List Char) : Bool := pre.isPrefixOf (lowerL s)

def startsLecLab (s : List Char) : Bool :=
  startsWithCI (cs "lec ") s || startsWithCI (cs "lab ") s

def startsDis (s : List Char) : Bool := startsWithCI (cs "dis ") s

/-- The `while i < len(content_lines)` loop of `_get_lec_lab_rows`. -/
def rowsAux : List (List Char) → List (List Char)
  | [] => []
  | [l] =>
    let s := pyStrip l
    if s.isEmpty then []
    else if startsLecLab s then [s] else []
  | l :: nl :: rest2 =>
    let s := pyStrip l
    if s.isEmpty then rowsAux (nl :: rest2)
    else if startsLecLab s then
      let n := pyStrip nl
      if !n.isEmpty && !(startsLecLab n || startsDis n) then
        (s ++ ' ' :: n) :: rowsAux rest2
      else s :: rowsAux (nl :: rest2)
    else rowsAux (nl :: rest2)

/-- `_get_lec_lab_rows(block)`. -/
def getLecLabRows (block : List Char) : List (List Char) :=
  rowsAux ((splitOnNl (pyStrip block)).drop 2)

lemma lowerL_append (s x : List Char) : lowerL (s ++ x) = lowerL s ++ lowerL x := by
  simp [lowerL]

lemma isPrefixOf_append_right {p l y : List Char} (h : p.isPrefixOf l = true) :
    p.isPrefixOf (l ++ y) = true := by
  rw [isPrefixOf_iff_prefSeg] at h ⊢
  obtain ⟨t, rfl⟩ := h
  exact ⟨t ++ y, by rw [List.append_assoc]⟩

lemma startsLecLab_append {s x : List Char} (h : startsLecLab s = true) :
    startsLecLab (s ++ x) = true := by
  unfold startsLecLab startsWithCI at h ⊢
  rw [lowerL_append]
  rw [Bool.or_eq_true] at h ⊢
  rcases h with h | h
  · exact Or.inl (isPrefixOf_append_right h)
  · exact Or.inr (isPrefixOf_append_right h)

lemma prefSeg_eq_of_length {p1 p2 l : List Char} (h1 : PrefSeg p1 l) (h2 : PrefSeg p2 l)
    (hl : p1.length = p2.length) : p1 = p2 := by
  obtain ⟨t1, ht1⟩ := h1
  obtain ⟨t2, ht2⟩ := h2
  have h : (p1 ++ t1).take p1.length = (p2 ++ t2).take p2.length := by
    rw [← ht1, ← ht2, hl]
  rwa [List.take_left, List.take_left] at h

lemma not_dis_of_lecLab {r : List Char} (h : startsLecLab r = true) :
    startsDis r = false := by
  unfold startsLecLab startsWithCI at h
  unfold startsDis startsWithCI
  rw [Bool.or_eq_true] at h
  by_contra hdis
  rw [Bool.not_eq_false, isPrefixOf_iff_prefSeg] at hdis
  rcases h with h | h <;> rw [isPrefixOf_iff_prefSeg] at h
  · exact absurd (prefSeg_eq_of_length hdis h (by decide)) (by decide)
  · exact absurd (prefSeg_eq_of_length hdis h (by decide)) (by decide)

/-- Every row the extractor's loop emits starts with `lec ` or `lab `
(case-insensitively). -/
lemma rowsAux_starts :
    ∀ (ls : List (List Char)) r, r ∈ rowsAux ls → startsLecLab r = true := by
  suffices key : ∀ N ls, List.length ls = N → ∀ r, r ∈ rowsAux ls →
      startsLecLab r = true by
    exact fun ls r hr => key ls.length ls rfl r hr
  intro N
  induction N using Nat.strong_induction_on with
  | _ N ih =>
    intro ls hn r hr
    subst hn
    rcases ls with _ | ⟨l, _ | ⟨nl, rest2⟩⟩
    · cases hr
    · simp only [rowsAux] at hr
      split at hr
      · cases hr
      · split at hr
        · rename_i hlec
          rcases List.mem_singleton.mp hr with rfl
          exact hlec
        · cases hr
    · simp only [rowsAux] at hr
      split at hr
      · exact ih (nl :: rest2).length (by simp) _ rfl r hr
      · split at hr
        · rename_i hlec
          split at hr
          · rcases List.mem_cons.mp hr with rfl | hr
            · exact startsLecLab_append hlec
            · exact ih rest2.length (by simp; omega) _ rfl r hr
          · rcases List.mem_cons.mp hr with rfl | hr
            · exact hlec
            · exact ih (nl :: rest2).length (by simp) _ rfl r hr
        · exact ih (nl :: rest2).length (by simp) _ rfl r hr

/-- Every row `_get_lec_lab_rows` emits begins with `lec ` or `lab `, and in
particular never with `dis `. -/
lemma getLecLabRows_starts {block r : List Char} (hr : r ∈ getLecLabRows block) :
    startsLecLab r = true ∧ startsDis r = false := by
  have h := rowsAux_starts _ r hr
  exact ⟨h, not_dis_of_lecLab h⟩

lemma blockMatches_subSeg {block code : List Char}
    (h : blockMatchesClassCode block code = true) : SubSeg code block := by
  rcases heq : splitOnNl (pyStrip block) with _ | ⟨l1, _ | ⟨l2, rest⟩⟩
  · exact absurd heq (splitOnNl_ne_nil _)
  · simp [blockMatchesClassCode, heq] at h
  · rw [blockMatches_iff_lineTokenMatch heq] at h
    obtain ⟨ws, tl, hdecomp, _⟩ := h
    have h1 : PrefSeg code (pyStrip l2) :=
      ⟨ws ++ '-' :: tl, by rw [hdecomp, List.append_assoc]⟩
    have h3 : SubSeg l2 (pyStrip block) :=
      splitOnNl_mem_subSeg (by rw [heq]; exact List.mem_cons_of_mem _ (List.mem_cons_self _ _))
    exact (((prefSeg_subSeg h1).trans (pyStrip_subSeg l2)).trans h3).trans (pyStrip_subSeg block)

/-!
## Status classifier

`_parse_lec_lab_status`: scan the pooled rows; any row containing `closed`
or `class full` (on the lowered text) returns `("closed", None)` at once;
otherwise the first regex capture per row of
`open:\s*(\d+)\s+of\s+\d+\s*left` and of `waitlist[:\s]*(\d+)` is
collected, and the maximum wins (open before waitlist, `closed` default).
In both regexes every greedy piece is followed by a disjoint character
class, so the hand-compiled matchers below need no backtracking.
-/

def closedSignal (row : List Char) : Bool :=
  containsSub (cs "closed") (lowerL row) || containsSub (cs "class full") (lowerL row)

/-- `int()` on a non-empty digit string. -/
def natOfDigits (ds : List Char) : Nat :=
  ds.foldl (fun a c => a * 10 + (c.toNat - 48)) 0

/-- Match `open:\s*(\d+)\s+of\s+\d+\s*left` anchored at the start of `t`,
returning the first capture. -/
def matchOpenAt (t : List Char) : Option Nat :=
  if (cs "open:").isPrefixOf t then
    let r2 := (t.drop 5).dropWhile pyIsSpace
    let ds := r2.takeWhile Char.isDigit
    if ds.isEmpty then none
    else
      let r3 := r2.drop ds.length
      let ws1 := r3.takeWhile pyIsSpace
      if ws1.isEmpty then none
      else
        let r4 := r3.drop ws1.length
        if (cs "of").isPrefixOf r4 then
          let ws2 := (r4.drop 2).takeWhile pyIsSpace
          if ws2.isEmpty then none
          else
            let r6 := (r4.drop 2).drop ws2.length
            let ds2 := r6.takeWhile Char.isDigit
            if ds2.isEmpty then none
            else
              let r7 := (r6.drop ds2.length).dropWhile pyIsSpace
              if (cs "left").isPrefixOf r7 then some (natOfDigits ds) else none
        else none
  else none

/-- `re.search` for the open-seats regex: leftmost match wins. -/
def searchOpen : List Char → Option Nat
  | [] => none
  | c :: rest =>
    match matchOpenAt (c :: rest) with
    | some n => some n
    | none => searchOpen rest

/-- Match `waitlist[:\s]*(\d+)` anchored at the start of `t`. -/
def matchWaitAt (t : List Char) : Option Nat :=
  if (cs "waitlist").isPrefixOf t then
    let r := (t.drop 8).dropWhile fun c => c = ':' || pyIsSpace c
    let ds := r.takeWhile Char.isDigit
    if ds.isEmpty then none else some (natOfDigits ds)
  else none

/-- `re.search` for the waitlist regex. -/
def searchWait : List Char → Option Nat
  | [] => none
  | c :: rest =>
    match matchWaitAt (c :: rest) with
    | some n => some n
    | none => searchWait rest

/-- The `if "open:" in t: m = re.search(...)` step for one row. -/
def rowOpenCapture (row : List Char) : Option Nat :=
  if containsSub (cs "open:") (lowerL row) then searchOpen (lowerL row) else none

/-- The `if "waitlist" in t: m = re.search(...)` step for one row. -/
def rowWaitCapture (row : List Char) : Option Nat :=
  if containsSub (cs "waitlist") (lowerL row) then searchWait (lowerL row) else none

/-- Python's `max` on a list of naturals (used only on non-empty lists). -/
def maxNatList (l : List Nat) : Nat := l.foldl max 0

/-- The final `if open_seats: … elif waitlist_seats: … else closed` step. -/
def finishSeats (open_seats waitlist_seats : List Nat) : String × Option Nat :=
  if !open_seats.isEmpty then ("open", some (maxNatList open_seats))
  else if !waitlist_seats.isEmpty then ("waitlist", some (maxNatList waitlist_seats))
  else ("closed", none)

/-- The row loop of `_parse_lec_lab_status`, with the two accumulators. -/
def parseAux : List (List Char) → List Nat → List Nat → String × Option Nat
  | [], open_seats, waitlist_seats => finishSeats open_seats waitlist_seats
  | row :: rest, open_seats, waitlist_seats =>
    if closedSignal row then ("closed", none)
    else
      parseAux rest (open_seats ++ (rowOpenCapture row).toList)
        (waitlist_seats ++ (rowWaitCapture row).toList)

/-- `_parse_lec_lab_status(rows)`. -/
def parseLecLabStatus (rows : List (List Char)) : String × Option Nat :=
  parseAux rows [] []

/-- The open-seat counts the loop collects over all rows. -/
def capturedOpens (rows : List (List Char)) : List Nat := rows.filterMap rowOpenCapture

/-- The waitlist counts the loop collects over all rows. -/
def capturedWaits (rows : List (List Char)) : List Nat := rows.filterMap rowWaitCapture

lemma parseAux_closed :
    ∀ (rows : List (List Char)) o w, (∃ r ∈ rows, closedSignal r = true) →
      parseAux rows o w = ("closed", none) := by
  intro rows
  induction rows with
  | nil =>
    rintro o w ⟨r, hr, _⟩
    cases hr
  | cons row rest ih =>
    rintro o w ⟨r, hr, hsig⟩
    rcases List.mem_cons.mp hr with rfl | hr
    · simp only [parseAux, hsig, if_true]
    · by_cases hrow : closedSignal row = true
      · simp only [parseAux, hrow, if_true]
      · simp only [parseAux]
        rw [if_neg hrow]
        exact ih _ _ ⟨r, hr, hsig⟩

lemma filterMap_cons_toList {α β : Type} (f : α → Option β) (a : α) (l : List α) :
    (f a).toList ++ l.filterMap f = (a :: l).filterMap f := by
  cases h : f a <;> simp [List.filterMap_cons, h]

lemma parseAux_noClosed :
    ∀ (rows : List (List Char)) o w, (∀ r ∈ rows, closedSignal r = false) →
      parseAux rows o w = finishSeats (o ++ capturedOpens rows) (w ++ capturedWaits rows) := by
  intro rows
  induction rows with
  | nil =>
    intro o w _
    simp [parseAux, capturedOpens, capturedWaits]
  | cons row rest ih =>
    intro o w h
    have hrow : closedSignal row = false := h row (List.mem_cons_self _ _)
    simp only [parseAux]
    rw [if_neg (by rw [hrow]; exact Bool.false_ne_true)]
    rw [ih _ _ fun r hr => h r (List.mem_cons_of_mem _ hr)]
    unfold capturedOpens capturedWaits
    rw [List.append_assoc, List.append_assoc, filterMap_cons_toList, filterMap_cons_toList]

lemma foldl_max_init_le (l : List Nat) : ∀ a, a ≤ l.foldl max a := by
  induction l with
  | nil => intro a; exact Nat.le_refl a
  | cons x xs ih =>
    intro a
    exact le_trans (le_max_left a x) (ih (max a x))

lemma foldl_max_mem (l : List Nat) : ∀ a, l.foldl max a = a ∨ l.foldl max a ∈ l := by
  induction l with
  | nil => intro a; exact Or.inl rfl
  | cons x xs ih =>
    intro a
    rcases ih (max a x) with h | h
    · rcases max_choice a x with hm | hm
      · exact Or.inl (by rw [List.foldl_cons, h, hm])
      · right
        rw [List.foldl_cons, h, hm]
        exact List.mem_cons_self x xs
    · right
      rw [List.foldl_cons]
      exact List.mem_cons_of_mem x h

lemma foldl_max_ub (l : List Nat) : ∀ a x, x ∈ l → x ≤ l.foldl max a := by
  induction l with
  | nil =>
    intro a x hx
    cases hx
  | cons y ys ih =>
    intro a x hx
    rcases List.mem_cons.mp hx with rfl | hx
    · exact le_trans (le_max_right a x) (foldl_max_init_le ys (max a x))
    · exact ih (max a y) x hx

lemma maxNatList_mem {l : List Nat} (h : l ≠ []) : maxNatList l ∈ l := by
  cases l with
  | nil => exact absurd rfl h
  | cons x xs =>
    unfold maxNatList
    rw [List.foldl_cons, max_eq_right (Nat.zero_le x)]
    rcases foldl_max_mem xs x with hm | hm
    · rw [hm]
      exact List.mem_cons_self x xs
    · exact List.mem_cons_of_mem x hm

lemma maxNatList_ub {l : List Nat} {x : Nat} (hx : x ∈ l) : x ≤ maxNatList l :=
  foldl_max_ub l 0 x hx

lemma matchOpenAt_isPre {t : List Char} {n : Nat} (h : matchOpenAt t = some n) :
    (cs "open:").isPrefixOf t = true := by
  by_contra hc
  rw [Bool.not_eq_true] at hc
  unfold matchOpenAt at h
  rw [if_neg (by rw [hc]; exact Bool.false_ne_true)] at h
  cases h

lemma searchOpen_contains {t : List Char} {n : Nat} (h : searchOpen t = some n) :
    containsSub (cs "open:") t = true := by
  induction t with
  | nil => cases h
  | cons c rest ih =>
    simp only [searchOpen] at h
    cases hm : matchOpenAt (c :: rest) with
    | some m =>
      have hp := matchOpenAt_isPre hm
      simp [containsSub, hp]
    | none =>
      rw [hm] at h
      have hrec : containsSub (cs "open:") rest = true := ih h
      simp [containsSub, hrec]

lemma rowOpenCapture_eq_search (row : List Char) :
    rowOpenCapture row = searchOpen (lowerL row) := by
  unfold rowOpenCapture
  by_cases h : containsSub (cs "open:") (lowerL row) = true
  · rw [if_pos h]
  · rw [if_neg h]
    cases hs : searchOpen (lowerL row) with
    | none => rfl
    | some n => exact absurd (searchOpen_contains hs) h

lemma capturedOpens_ne_nil {rows : List (List Char)} {r : List Char} (hr : r ∈ rows)
    {n : Nat} (hs : searchOpen (lowerL r) = some n) : capturedOpens rows ≠ [] := by
  have hmem : n ∈ capturedOpens rows := by
    refine List.mem_filterMap.mpr ⟨r, hr, ?_⟩
    rw [rowOpenCapture_eq_search]
    exact hs
  exact List.ne_nil_of_mem hmem

/-- With no closed/class-full signal and at least one open capture, the
classifier returns `open` with the maximum of all captured counts. -/
lemma parse_open_max {rows : List (List Char)}
    (hnc : ∀ r ∈ rows, closedSignal r = false)
    (hop : capturedOpens rows ≠ []) :
    parseLecLabStatus rows = ("open", some (maxNatList (capturedOpens rows))) := by
  unfold parseLecLabStatus
  rw [parseAux_noClosed rows [] [] hnc]
  rw [List.nil_append, List.nil_append]
  unfold finishSeats
  have hcond : (!(capturedOpens rows).isEmpty) = true := by
    cases hcap : capturedOpens rows with
    | nil => exact absurd hcap hop
    | cons x xs => rfl
  rw [if_pos hcond]

/-!
## Top-level availability lookup and poll-loop gate

`get_course_availability(driver, label, class_code)` fetches the page body
text from the driver (the only fallible step for well-typed input; its
exception is what the surrounding `try/except` converts into the `ERROR`
result) and then runs the pure pipeline.  The fetch is modelled as an
`Except` value: `.error e` stands for a raised exception with message `e`.
-/

/-- `str(n)`: fuelled decimal rendering (fuel `n + 1` always suffices). -/
def natDigitsF : Nat → Nat → List Char → List Char
  | 0, _, acc => acc
  | fuel + 1, n, acc =>
    if n < 10 then Nat.digitChar (n % 10) :: acc
    else natDigitsF fuel (n / 10) (Nat.digitChar (n % 10) :: acc)

def natDigits (n : Nat) : List Char := natDigitsF (n + 1) n []

/-- `f"[{label} - {tag}]"`. -/
def mkMsg (label tag : List Char) : List Char :=
  cs "[" ++ label ++ cs " - " ++ tag ++ cs "]"

/-- `f"[{label} - {count} SEATS OPEN]"`. -/
def openMsg (label : List Char) (n : Nat) : List Char :=
  mkMsg label (natDigits n ++ cs " SEATS OPEN")

/-- `f"[{label} - {count} WAITLIST SEATS]"`. -/
def waitMsg (label : List Char) (n : Nat) : List Char :=
  mkMsg label (natDigits n ++ cs " WAITLIST SEATS")

/-- `get_course_availability(driver, label, class_code)`. -/
def get_course_availability (driver : Except (List Char) (List Char))
    (label class_code : List Char) : List Char × List Char :=
  match driver with
  | .error e => (mkMsg label (cs "ERROR"), e)
  | .ok page_text =>
    if containsSub class_code page_text then
      let matching_blocks :=
        (getClassBlocks page_text).filter fun b => blockMatchesClassCode b class_code
      match matching_blocks with
      | [] => (mkMsg label (cs "NOT FOUND"), [])
      | b0 :: rest =>
        let all_lec_lab_rows := (b0 :: rest).flatMap getLecLabRows
        if all_lec_lab_rows.isEmpty then (mkMsg label (cs "NOT FOUND"), b0.take 600)
        else
          let sc := parseLecLabStatus all_lec_lab_rows
          if sc.1 = "closed" then (mkMsg label (cs "CLOSED"), b0.take 600)
          else
            match sc with
            | (st, some n) =>
              if st = "open" then (openMsg label n, b0.take 600)
              else if st = "waitlist" then (waitMsg label n, b0.take 600)
              else (mkMsg label (cs "CLOSED"), b0.take 600)
            | (_, none) => (mkMsg label (cs "CLOSED"), b0.take 600)
    else (mkMsg label (cs "NOT FOUND"), [])

/-- The poll loop's posting gate:
`"CLOSED" not in status and "NOT FOUND" not in status`. -/
def shouldNotify (status : List Char) : Bool :=
  !containsSub (cs "CLOSED") status && !containsSub (cs "NOT FOUND") status

/-!
## Support lemmas for the top-level lookup
-/

lemma segSpecFrom_none {r : List Char} (h : headerLen r = none) : segSpecFrom r = [] := by
  rw [segSpecFrom_eq]
  simp only [h]

lemma segSpecFrom_mem :
    ∀ (r b : List Char), b ∈ segSpecFrom r → ∃ t, SubSeg t r ∧ b = pyStrip t := by
  suffices key : ∀ N r, List.length r = N → ∀ b ∈ segSpecFrom r,
      ∃ t, SubSeg t r ∧ b = pyStrip t by
    exact fun r b hb => key r.length r rfl b hb
  intro N
  induction N using Nat.strong_induction_on with
  | _ N ih =>
    intro r hn b hb
    subst hn
    cases hh : headerLen r with
    | none =>
      rw [segSpecFrom_none hh] at hb
      cases hb
    | some n =>
      have hpos := headerLen_pos hh
      rw [segSpecFrom_some hh] at hb
      have hsplit := splitAtNextHeader_append (r.drop n)
      rcases List.mem_cons.mp hb with rfl | hb
      · refine ⟨r.take n ++ (splitAtNextHeader (r.drop n)).1, ?_, rfl⟩
        refine prefSeg_subSeg ⟨(splitAtNextHeader (r.drop n)).2, ?_⟩
        rw [List.append_assoc, hsplit, List.take_append_drop]
      · have hr : r ≠ [] := by
          intro hr0
          subst hr0
          cases hh
        have hlt : (splitAtNextHeader (r.drop n)).2.length < r.length := by
          have h1 := splitAtNextHeader_snd_len (r.drop n)
          rw [List.length_drop] at h1
          cases r with
          | nil => exact absurd rfl hr
          | cons c0 r0 =>
            simp only [List.length_cons] at h1 ⊢
            omega
        obtain ⟨t, hts, htb⟩ := ih _ hlt _ rfl b hb
        have hsuf1 : SufSeg (splitAtNextHeader (r.drop n)).2 (r.drop n) :=
          ⟨(splitAtNextHeader (r.drop n)).1, hsplit.symm⟩
        have hsuf2 : SufSeg (r.drop n) r := ⟨r.take n, (List.take_append_drop n r).symm⟩
        exact ⟨t, (hts.trans (sufSeg_subSeg hsuf1)).trans (sufSeg_subSeg hsuf2), htb⟩

lemma getClassBlocks_subSeg {page b : List Char} (hb : b ∈ getClassBlocks page) :
    SubSeg b page := by
  rw [getClassBlocks_eq_segSpec] at hb
  obtain ⟨t, hts, rfl⟩ := segSpecFrom_mem _ _ hb
  have hsuf : SufSeg (splitAtNextHeader page).2 page :=
    ⟨(splitAtNextHeader page).1, (splitAtNextHeader_append page).symm⟩
  exact (pyStrip_subSeg t).trans (hts.trans (sufSeg_subSeg hsuf))

lemma matching_contains {page code b : List Char}
    {rest : List (List Char)}
    (hm : (getClassBlocks page).filter (fun x => blockMatchesClassCode x code) = b :: rest) :
    containsSub code page = true := by
  have hb : b ∈ (getClassBlocks page).filter (fun x => blockMatchesClassCode x code) := by
    rw [hm]
    exact List.mem_cons_self _ _
  rw [List.mem_filter] at hb
  rw [containsSub_iff_subSeg]
  exact (blockMatches_subSeg hb.2).trans (getClassBlocks_subSeg hb.1)

lemma blockMatches_ne_nil {block code : List Char}
    (h : blockMatchesClassCode block code = true) : block ≠ [] := by
  intro hb
  subst hb
  have hfalse : blockMatchesClassCode [] code = false := rfl
  rw [hfalse] at h
  exact Bool.false_ne_true h

lemma take_ne_nil {l : List Char} {n : Nat} (hl : l ≠ []) (hn : 0 < n) :
    l.take n ≠ [] := by
  cases l with
  | nil => exact absurd rfl hl
  | cons c rest =>
    cases n with
    | zero => exact absurd hn (by omega)
    | succ m =>
      rw [List.take_succ_cons]
      exact List.cons_ne_nil c _

lemma gca_error (e label code : List Char) :
    get_course_availability (Except.error e) label code = (mkMsg label (cs "ERROR"), e) := rfl

lemma gca_not_contains {page label code : List Char} (h : containsSub code page = false) :
    get_course_availability (Except.ok page) label code = (mkMsg label (cs "NOT FOUND"), []) := by
  simp only [get_course_availability]
  rw [if_neg (by rw [h]; exact Bool.false_ne_true)]

lemma gca_no_matching {page label code : List Char}
    (h : (getClassBlocks page).filter (fun b => blockMatchesClassCode b code) = []) :
    get_course_availability (Except.ok page) label code = (mkMsg label (cs "NOT FOUND"), []) := by
  by_cases hc : containsSub code page = true
  · simp only [get_course_availability]
    rw [if_pos hc, h]
  · rw [Bool.not_eq_true] at hc
    exact gca_not_contains hc

lemma gca_rows_empty {page label code b0 : List Char} {rest : List (List Char)}
    (hm : (getClassBlocks page).filter (fun b => blockMatchesClassCode b code) = b0 :: rest)
    (hrows : (b0 :: rest).flatMap getLecLabRows = []) :
    get_course_availability (Except.ok page) label code =
      (mkMsg label (cs "NOT FOUND"), b0.take 600) := by
  have hc : containsSub code page = true := matching_contains hm
  simp only [get_course_availability]
  rw [if_pos hc, hm]
  simp only [hrows]
  rfl

lemma digitChar_isDigit : ∀ m, m < 10 → (Nat.digitChar m).isDigit = true := by
  decide

lemma natDigitsF_chars :
    ∀ fuel n (acc : List Char), (∀ c ∈ acc, c.isDigit = true) →
      ∀ c ∈ natDigitsF fuel n acc, c.isDigit = true := by
  intro fuel
  induction fuel with
  | zero =>
    intro n acc hacc c hc
    exact hacc c hc
  | succ f ih =>
    intro n acc hacc c hc
    have hstep : ∀ d ∈ Nat.digitChar (n % 10) :: acc, d.isDigit = true := by
      intro d hd
      rcases List.mem_cons.mp hd with rfl | hd
      · exact digitChar_isDigit _ (Nat.mod_lt n (by omega))
      · exact hacc d hd
    simp only [natDigitsF] at hc
    split at hc
    · exact hstep c hc
    · exact ih (n / 10) _ hstep c hc

lemma natDigits_chars {n : Nat} : ∀ c ∈ natDigits n, c.isDigit = true :=
  natDigitsF_chars (n + 1) n [] (by intro c hc; cases hc)

lemma not_contains_of_char_absent {needle s : List Char} {c0 : Char}
    (hc : c0 ∈ needle) (hs : c0 ∉ s) : containsSub needle s = false := by
  by_contra h
  rw [Bool.not_eq_false, containsSub_iff_subSeg] at h
  exact hs (h.mem hc)

/-- Sufficient condition for the gate to pass: the status text contains no
`C` and no `F`, so neither `"CLOSED"` nor `"NOT FOUND"` can occur in it. -/
lemma shouldNotify_of_absent {status : List Char} (hC : 'C' ∉ status) (hF : 'F' ∉ status) :
    shouldNotify status = true := by
  unfold shouldNotify
  rw [not_contains_of_char_absent (by decide) hC,
    not_contains_of_char_absent (by decide) hF]
  rfl

lemma notMem_msg_pieces {label tag : List Char} {c0 : Char} (hl : c0 ∉ label)
    (ht : c0 ∉ tag) (hbr : c0 ∉ cs "[" ∧ c0 ∉ cs " - " ∧ c0 ∉ cs "]") :
    c0 ∉ mkMsg label tag := by
  unfold mkMsg
  intro h
  simp only [List.mem_append] at h
  rcases h with (((h | h) | h) | h) | h
  · exact hbr.1 h
  · exact hl h
  · exact hbr.2.1 h
  · exact ht h
  · exact hbr.2.2 h

lemma notMem_digits_append {c0 : Char} {n : Nat} {x : List Char}
    (hdig : c0.isDigit = false) (hx : c0 ∉ x) : c0 ∉ natDigits n ++ x := by
  intro h
  rcases List.mem_append.mp h with h | h
  · rw [natDigits_chars c0 h] at hdig
    cases hdig
  · exact hx h

/-- The gate passes every `OPEN` result whose display label has no `C`/`F`. -/
lemma shouldNotify_openMsg {label : List Char} (hC : 'C' ∉ label) (hF : 'F' ∉ label)
    (n : Nat) : shouldNotify (openMsg label n) = true := by
  refine shouldNotify_of_absent ?_ ?_
  · exact notMem_msg_pieces hC
      (notMem_digits_append (by decide) (by decide)) ⟨by decide, by decide, by decide⟩
  · exact notMem_msg_pieces hF
      (notMem_digits_append (by decide) (by decide)) ⟨by decide, by decide, by decide⟩

/-- The gate passes every `WAITLIST` result whose display label has no `C`/`F`. -/
lemma shouldNotify_waitMsg {label : List Char} (hC : 'C' ∉ label) (hF : 'F' ∉ label)
    (n : Nat) : shouldNotify (waitMsg label n) = true := by
  refine shouldNotify_of_absent ?_ ?_
  · exact notMem_msg_pieces hC
      (notMem_digits_append (by decide) (by decide)) ⟨by decide, by decide, by decide⟩
  · exact notMem_msg_pieces hF
      (notMem_digits_append (by decide) (by decide)) ⟨by decide, by decide, by decide⟩

/-- The gate also passes every `ERROR` result whose label has no `C`/`F` —
error results are posted, not suppressed. -/
lemma shouldNotify_errMsg {label : List Char} (hC : 'C' ∉ label) (hF : 'F' ∉ label) :
    shouldNotify (mkMsg label (cs "ERROR")) = true := by
  refine shouldNotify_of_absent ?_ ?_
  · exact notMem_msg_pieces hC (by decide) ⟨by decide, by decide, by decide⟩
  · exact notMem_msg_pieces hF (by decide) ⟨by decide, by decide, by decide⟩

lemma contains_of_subSeg {needle s : List Char} (h : SubSeg needle s) :
    containsSub needle s = true := (containsSub_iff_subSeg needle s).mpr h

/-- A `CLOSED` result always contains `"CLOSED"`, so the gate rejects it. -/
lemma shouldNotify_closedMsg (label : List Char) :
    shouldNotify (mkMsg label (cs "CLOSED")) = false := by
  unfold shouldNotify
  have h : containsSub (cs "CLOSED") (mkMsg label (cs "CLOSED")) = true := by
    refine contains_of_subSeg ⟨cs "[" ++ label ++ cs " - ", cs "]", ?_⟩
    unfold mkMsg
    simp [List.append_assoc]
  rw [h]
  rfl

/-- A `NOT FOUND` result always contains `"NOT FOUND"`, so the gate rejects it. -/
lemma shouldNotify_notFoundMsg (label : List Char) :
    shouldNotify (mkMsg label (cs "NOT FOUND")) = false := by
  unfold shouldNotify
  have h : containsSub (cs "NOT FOUND") (mkMsg label (cs "NOT FOUND")) = true := by
    refine contains_of_subSeg ⟨cs "[" ++ label ++ cs " - ", cs "]", ?_⟩
    unfold mkMsg
    simp [List.append_assoc]
  rw [h]
  simp

/-- Every result of the lookup is one of the five bracketed label forms. -/
lemma gca_forms (driver : Except (List Char) (List Char)) (label code : List Char) :
    (get_course_availability driver label code).1 = mkMsg label (cs "NOT FOUND") ∨
    (get_course_availability driver label code).1 = mkMsg label (cs "CLOSED") ∨
    (∃ n, (get_course_availability driver label code).1 = openMsg label n) ∨
    (∃ n, (get_course_availability driver label code).1 = waitMsg label n) ∨
    (get_course_availability driver label code).1 = mkMsg label (cs "ERROR") := by
  cases driver with
  | error e => exact Or.inr (Or.inr (Or.inr (Or.inr rfl)))
  | ok page =>
    simp only [get_course_availability]
    split
    · split
      · exact Or.inl rfl
      · split
        · exact Or.inl rfl
        · split
          · exact Or.inr (Or.inl rfl)
          · split
            · split
              · rename_i n _ _
                exact Or.inr (Or.inr (Or.inl ⟨n, rfl⟩))
              · split
                · rename_i n _ _ _
                  exact Or.inr (Or.inr (Or.inr (Or.inl ⟨n, rfl⟩)))
                · exact Or.inr (Or.inl rfl)
            · exact Or.inr (Or.inl rfl)
    · exact Or.inl rfl

/-!
## Claim theorems
-/

/-- C2: for every pooled list of section rows, if any row's text
case-insensitively contains `"closed"` or `"class full"`, the classifier
returns the closed verdict with no count, regardless of any open-seat or
waitlist signals elsewhere in the pool and of their order. -/
theorem claim_C2 (rows : List (List Char))
    (h : ∃ r ∈ rows, containsSub (cs "closed") (lowerL r) = true ∨
      containsSub (cs "class full") (lowerL r) = true) :
    parseLecLabStatus rows = ("closed", none) := by
  apply parseAux_closed
  obtain ⟨r, hr, hsig⟩ := h
  refine ⟨r, hr, ?_⟩
  unfold closedSignal
  rcases hsig with h | h <;> simp [h]

/-- Witness for C2: a pool with an open row before a closed row still
classifies as closed. -/
theorem claim_C2_witness :
    parseLecLabStatus [cs "Lec 1 Open: 5 of 20 left", cs "Lab 2 Closed"] =
      ("closed", none) :=
  claim_C2 _ (by decide)

/-- C3: with no closed/class-full signal and at least one row matching the
open-seats regex, the classifier returns `open(m)` where `m` is the maximum
of all captured counts (an element of the captures that bounds them all),
not their sum and not the first. -/
theorem claim_C3 (rows : List (List Char))
    (hnc : ∀ r ∈ rows, closedSignal r = false)
    (hsome : ∃ r ∈ rows, (searchOpen (lowerL r)).isSome = true) :
    parseLecLabStatus rows = ("open", some (maxNatList (capturedOpens rows))) ∧
    maxNatList (capturedOpens rows) ∈ capturedOpens rows ∧
    ∀ x ∈ capturedOpens rows, x ≤ maxNatList (capturedOpens rows) := by
  obtain ⟨r, hr, hs⟩ := hsome
  rw [Option.isSome_iff_exists] at hs
  obtain ⟨n, hn⟩ := hs
  have hne := capturedOpens_ne_nil hr hn
  exact ⟨parse_open_max hnc hne, maxNatList_mem hne, fun x hx => maxNatList_ub hx⟩

/-- Witness for C3: counts {3, 10, 1} yield `open(10)` — the maximum. -/
theorem claim_C3_witness :
    parseLecLabStatus [cs "Lec 1 Open: 3 of 20 left", cs "Lec 2 Open: 10 of 20 left",
      cs "Lab 1 Open: 1 of 5 left"] = ("open", some 10) := by
  have h := (claim_C3 [cs "Lec 1 Open: 3 of 20 left", cs "Lec 2 Open: 10 of 20 left",
    cs "Lab 1 Open: 1 of 5 left"] (by decide) (by decide)).1
  rw [h]
  decide

/-- C5: the matcher returns false on blocks with fewer than 2 lines; it
returns true exactly when the trimmed second line starts with the
identifier as a literal token followed by optional whitespace and `-`;
`"6"` does not match a line starting `"60 - "`, and pattern-special
characters in the identifier are matched literally. -/
theorem claim_C5 :
    (∀ block code : List Char, (splitOnNl (pyStrip block)).length < 2 →
      blockMatchesClassCode block code = false) ∧
    (∀ (block code l1 l2 : List Char) (rest : List (List Char)),
      splitOnNl (pyStrip block) = l1 :: l2 :: rest →
      (blockMatchesClassCode block code = true ↔ LineTokenMatch code (pyStrip l2))) ∧
    blockMatchesClassCode (cs "Class 1:\n60 - Foo") (cs "6") = false ∧
    blockMatchesClassCode (cs "Class 1:\n6 - Foo") (cs "6") = true ∧
    blockMatchesClassCode (cs "Class 1:\nA.1 - X") (cs "A.1") = true ∧
    blockMatchesClassCode (cs "Class 1:\nAX1 - X") (cs "A.1") = false :=
  ⟨fun _ _ h => blockMatches_of_short h,
   fun _ _ _ _ _ h => blockMatches_iff_lineTokenMatch h,
   by decide, by decide, by decide, by decide⟩

/-- Witness for C5: one-line blocks never match, and the token
characterization produces a concrete match. -/
theorem claim_C5_witness :
    blockMatchesClassCode (cs "only one line") (cs "A") = false ∧
    blockMatchesClassCode (cs "Class 1:\nA - X") (cs "A") = true :=
  ⟨claim_C5.1 (cs "only one line") (cs "A") (by decide),
   (claim_C5.2.1 (cs "Class 1:\nA - X") (cs "A") (cs "Class 1:") (cs "A - X") []
      (by decide)).mpr ⟨cs " ", cs " X", by decide, by decide⟩⟩

/-- C6: every row the extractor emits begins case-insensitively with
`"lec "` or `"lab "` and never with `"dis "`; concretely, a `Dis` line
following a `lec` line without its own status line neither starts a row
nor is merged into the `lec` row. -/
theorem claim_C6 :
    (∀ block r : List Char, r ∈ getLecLabRows block →
      (startsWithCI (cs "lec ") r = true ∨ startsWithCI (cs "lab ") r = true) ∧
      startsWithCI (cs "dis ") r = false) ∧
    getLecLabRows (cs "Class 1:\nA - x\nLec 1\nDis 1A Open: 3 of 5 left") = [cs "Lec 1"] := by
  constructor
  · intro block r hr
    obtain ⟨h1, h2⟩ := getLecLabRows_starts hr
    unfold startsLecLab at h1
    unfold startsDis at h2
    rw [Bool.or_eq_true] at h1
    exact ⟨h1, h2⟩
  · decide

/-- Witness for C6: the single emitted row of the concrete block starts
with `lec ` and not with `dis `. -/
theorem claim_C6_witness :
    (startsWithCI (cs "lec ") (cs "Lec 1") = true ∨
      startsWithCI (cs "lab ") (cs "Lec 1") = true) ∧
    startsWithCI (cs "dis ") (cs "Lec 1") = false :=
  claim_C6.1 (cs "Class 1:\nA - x\nLec 1\nDis 1A Open: 3 of 5 left") (cs "Lec 1") (by decide)

/-- C9: a page with no occurrence of the case-insensitive `Class \d+:`
header segments to no blocks; in general the segmenter discards the text
before the first header and emits `trim(header ++ content)` blocks in
document order (the spec-side `segSpec`). -/
theorem claim_C9 :
    (∀ s : List Char, (∀ i, i < s.length → headerLen (s.drop i) = none) →
      getClassBlocks s = []) ∧
    (∀ s : List Char, getClassBlocks s = segSpec s) :=
  ⟨getClassBlocks_of_noHeader, getClassBlocks_eq_segSpec⟩

/-- Witness for C9: the empty page and a header-free page yield no blocks. -/
theorem claim_C9_witness :
    getClassBlocks (cs "") = [] ∧ getClassBlocks (cs "hello\nworld") = [] :=
  ⟨claim_C9.1 (cs "") (by decide), claim_C9.1 (cs "hello\nworld") (by decide)⟩

/-- C4: the lookup never propagates a failure: a raised fetch is converted
to the `("[<label> - ERROR]", <error>)` pair, a result pair always exists,
and every result label is one of the five bracketed forms. -/
theorem claim_C4 :
    (∀ e label code : List Char,
      get_course_availability (Except.error e) label code = (mkMsg label (cs "ERROR"), e)) ∧
    (∀ (driver : Except (List Char) (List Char)) (label code : List Char),
      ∃ s ev, get_course_availability driver label code = (s, ev)) ∧
    (∀ (driver : Except (List Char) (List Char)) (label code : List Char),
      (get_course_availability driver label code).1 = mkMsg label (cs "NOT FOUND") ∨
      (get_course_availability driver label code).1 = mkMsg label (cs "CLOSED") ∨
      (∃ n, (get_course_availability driver label code).1 = openMsg label n) ∨
      (∃ n, (get_course_availability driver label code).1 = waitMsg label n) ∨
      (get_course_availability driver label code).1 = mkMsg label (cs "ERROR")) :=
  ⟨gca_error, fun _ _ _ => ⟨_, _, rfl⟩, gca_forms⟩

/-- C7: when at least one block matches but the pooled row extraction is
empty, the lookup returns NOT FOUND carrying the first 600 characters of
the first matching block as non-empty evidence; the identifier-absent and
no-matching-block cases return NOT FOUND with empty evidence. -/
theorem claim_C7 :
    (∀ (page label code b0 : List Char) (rest : List (List Char)),
      (getClassBlocks page).filter (fun b => blockMatchesClassCode b code) = b0 :: rest →
      (b0 :: rest).flatMap getLecLabRows = [] →
      get_course_availability (Except.ok page) label code =
        (mkMsg label (cs "NOT FOUND"), b0.take 600) ∧ b0.take 600 ≠ []) ∧
    (∀ page label code : List Char, containsSub code page = false →
      get_course_availability (Except.ok page) label code =
        (mkMsg label (cs "NOT FOUND"), [])) ∧
    (∀ page label code : List Char,
      (getClassBlocks page).filter (fun b => blockMatchesClassCode b code) = [] →
      get_course_availability (Except.ok page) label code =
        (mkMsg label (cs "NOT FOUND"), [])) := by
  refine ⟨?_, fun _ _ _ h => gca_not_contains h, fun _ _ _ h => gca_no_matching h⟩
  intro page label code b0 rest hm hrows
  have hb0 : blockMatchesClassCode b0 code = true := by
    have hmem : b0 ∈ (getClassBlocks page).filter (fun b => blockMatchesClassCode b code) := by
      rw [hm]
      exact List.mem_cons_self _ _
    exact (List.mem_filter.mp hmem).2
  exact ⟨gca_rows_empty hm hrows, take_ne_nil (blockMatches_ne_nil hb0) (by omega)⟩

/-- Witness for C7: a matching block containing only a `Dis` row yields
NOT FOUND with the block itself as non-empty evidence. -/
theorem claim_C7_witness :
    get_course_availability (Except.ok (cs "Class 1:\nA - Intro\nDis 1A Open: 3 of 5 left"))
        (cs "X") (cs "A") =
      (mkMsg (cs "X") (cs "NOT FOUND"),
        (cs "Class 1:\nA - Intro\nDis 1A Open: 3 of 5 left").take 600) ∧
    (cs "Class 1:\nA - Intro\nDis 1A Open: 3 of 5 left").take 600 ≠ [] :=
  claim_C7.1 (cs "Class 1:\nA - Intro\nDis 1A Open: 3 of 5 left") (cs "X") (cs "A")
    (cs "Class 1:\nA - Intro\nDis 1A Open: 3 of 5 left") [] (by decide) (by decide)

/-- C8: the lookup is a pure function of the fetched page text, label, and
identifier — equal inputs give byte-identical outputs (the embedding is a
total function with no other state). -/
theorem claim_C8 :
    ∀ (d d' : Except (List Char) (List Char)) (l l' c c' : List Char),
      d = d' → l = l' → c = c' →
      get_course_availability d l c = get_course_availability d' l' c' := by
  intro d d' l l' c c' hd hl hc
  rw [hd, hl, hc]

/-- Witness for C8: two invocations on the same concrete input coincide. -/
theorem claim_C8_witness :
    get_course_availability (Except.ok (cs "Class 1:\nA - I\nLec 1 Closed"))
        (cs "AERO") (cs "A") =
      get_course_availability (Except.ok (cs "Class 1:\nA - I\nLec 1 Closed"))
        (cs "AERO") (cs "A") :=
  claim_C8 _ _ _ _ _ _ rfl rfl rfl

/-- C10: a pool whose only row reads `Lec 1 Open: 0 of 300 left` classifies
as `open(0)`; the lookup then labels it `[AERO - 0 SEATS OPEN]`, which the
poll loop's gate passes — a zero-seat course triggers a notification. -/
theorem claim_C10 :
    parseLecLabStatus [cs "Lec 1 Open: 0 of 300 left"] = ("open", some 0) ∧
    get_course_availability (Except.ok (cs "Class 1:\nA - Intro\nLec 1 Open: 0 of 300 left"))
        (cs "AERO") (cs "A") =
      (cs "[AERO - 0 SEATS OPEN]", cs "Class 1:\nA - Intro\nLec 1 Open: 0 of 300 left") ∧
    shouldNotify (cs "[AERO - 0 SEATS OPEN]") = true := by
  refine ⟨by decide, by decide, by decide⟩

/-- C1 counterexample: the claimed "handed over iff OPEN or WAITLIST form"
equivalence fails — `[CLOSEDBIO - 5 SEATS OPEN]` is an OPEN-form message,
yet the gate suppresses it because the display name contains `CLOSED`. -/
theorem claim_C1_counterexample :
    shouldNotify (openMsg (cs "CLOSEDBIO") 5) = false := by
  decide

/-- C1 (amended): the gate is exactly the substring test `no "CLOSED" and
no "NOT FOUND"`; for labels without `C`/`F` characters it admits every
OPEN, WAITLIST and ERROR result, and it rejects every CLOSED and NOT FOUND
result regardless of label. -/
theorem claim_C1_amended :
    (∀ (label : List Char) (n : Nat), 'C' ∉ label → 'F' ∉ label →
      shouldNotify (openMsg label n) = true ∧ shouldNotify (waitMsg label n) = true ∧
      shouldNotify (mkMsg label (cs "ERROR")) = true) ∧
    (∀ label : List Char, shouldNotify (mkMsg label (cs "CLOSED")) = false ∧
      shouldNotify (mkMsg label (cs "NOT FOUND")) = false) :=
  ⟨fun _ n hC hF => ⟨shouldNotify_openMsg hC hF n, shouldNotify_waitMsg hC hF n,
    shouldNotify_errMsg hC hF⟩,
   fun label => ⟨shouldNotify_closedMsg label, shouldNotify_notFoundMsg label⟩⟩

/-- Witness for the amended C1 at the configured label `AERO`. -/
theorem claim_C1_witness :
    shouldNotify (openMsg (cs "AERO") 84) = true ∧
    shouldNotify (mkMsg (cs "AERO") (cs "ERROR")) = true ∧
    shouldNotify (mkMsg (cs "AERO") (cs "CLOSED")) = false :=
  ⟨(claim_C1_amended.1 (cs "AERO") 84 (by decide) (by decide)).1,
   (claim_C1_amended.1 (cs "AERO") 84 (by decide) (by decide)).2.2,
   (claim_C1_amended.2 (cs "AERO")).1⟩

end Monitor
